import Mathlib

/-!
Shallow embedding of the two scripts of the Videomaker_python repository
(src/program.py and src/rename.py), together with theorems settling the
frozen claims about them.

Strings are modelled by Lean `String` / `List Char`.  Decimal rendering of
integers (Python `str(i)`, f-string interpolation and the `:06` format
specifier) is modelled by an executable renderer `toDec` together with a
round-trip proof.  Regular-expression digits (`\d`) are modelled as ASCII
digits, and the regex `.` metacharacter as "any character except newline",
as in the `re` module.
-/

namespace Videomaker

/-! ### Decimal rendering of naturals (Python `str(n)` / `f-string`) -/

def digitChar (n : Nat) : Char :=
  match n with
  | 0 => '0'
  | 1 => '1'
  | 2 => '2'
  | 3 => '3'
  | 4 => '4'
  | 5 => '5'
  | 6 => '6'
  | 7 => '7'
  | 8 => '8'
  | _ => '9'

/-- Decimal rendering with explicit fuel, so that the kernel can evaluate
it (the fuel strictly dominates the number being rendered). -/
def toDecAux : Nat → Nat → List Char
  | 0, _ => []
  | fuel + 1, n =>
    if n < 10 then [digitChar n]
    else toDecAux fuel (n / 10) ++ [digitChar (n % 10)]

/-- Decimal digit list of a natural number, most significant digit first. -/
def toDec (n : Nat) : List Char := toDecAux (n + 1) n

theorem toDecAux_fuel :
    ∀ fuel fuel' n : Nat, n < fuel → n < fuel' → toDecAux fuel n = toDecAux fuel' n := by
  intro fuel
  induction fuel with
  | zero => intro fuel' n h; omega
  | succ fuel ih =>
    intro fuel' n h h'
    cases fuel' with
    | zero => omega
    | succ fuel' =>
      rw [toDecAux, toDecAux]
      by_cases h10 : n < 10
      · rw [if_pos h10, if_pos h10]
      · rw [if_neg h10, if_neg h10,
          ih fuel' (n / 10) (by omega) (by omega)]

/-- The defining recurrence of `toDec`. -/
theorem toDec_eq (n : Nat) :
    toDec n = if n < 10 then [digitChar n] else toDec (n / 10) ++ [digitChar (n % 10)] := by
  rw [toDec, toDecAux]
  by_cases h10 : n < 10
  · rw [if_pos h10, if_pos h10]
  · rw [if_neg h10, if_neg h10, toDec,
      toDecAux_fuel n (n / 10 + 1) (n / 10) (by omega) (by omega)]

/-- Numeric value of a decimal digit list (Python `int(s)` on digit strings). -/
def digitsToNat (l : List Char) : Nat :=
  l.foldl (fun a c => 10 * a + (c.toNat - 48)) 0

def decStr (n : Nat) : String := ⟨toDec n⟩

theorem digitChar_isDigit (n : Nat) : (digitChar n).isDigit = true := by
  unfold digitChar
  split <;> rfl

theorem digitChar_toNat (n : Nat) (h : n < 10) : (digitChar n).toNat - 48 = n := by
  interval_cases n <;> rfl

theorem digitsToNat_append (l : List Char) (c : Char) :
    digitsToNat (l ++ [c]) = 10 * digitsToNat l + (c.toNat - 48) := by
  simp [digitsToNat, List.foldl_append]

theorem toDec_val (n : Nat) : digitsToNat (toDec n) = n := by
  induction n using Nat.strong_induction_on with
  | _ n ih =>
    rw [toDec_eq]
    split
    · next h =>
      show digitsToNat [digitChar n] = n
      simp [digitsToNat, digitChar_toNat n h]
    · next h =>
      rw [digitsToNat_append, ih (n / 10) (Nat.div_lt_self (by omega) (by omega)),
        digitChar_toNat (n % 10) (Nat.mod_lt _ (by omega))]
      omega

theorem toDec_inj {m n : Nat} (h : toDec m = toDec n) : m = n := by
  rw [← toDec_val m, ← toDec_val n, h]

theorem toDec_ne_nil (n : Nat) : toDec n ≠ [] := by
  rw [toDec_eq]
  split <;> simp

theorem toDec_isDigit (n : Nat) : ∀ c ∈ toDec n, c.isDigit = true := by
  induction n using Nat.strong_induction_on with
  | _ n ih =>
    rw [toDec_eq]
    split
    · intro c hc
      simp at hc
      subst hc
      exact digitChar_isDigit n
    · next h =>
      intro c hc
      rw [List.mem_append] at hc
      rcases hc with hc | hc
      · exact ih (n / 10) (Nat.div_lt_self (by omega) (by omega)) c hc
      · simp at hc
        subst hc
        exact digitChar_isDigit (n % 10)

/-- Python `f"{n:06}"`: left-pad the decimal form with zeros to width 6. -/
def pad6 (n : Nat) : List Char :=
  List.replicate (6 - (toDec n).length) '0' ++ toDec n

theorem digitsToNat_replicate_zero (k : Nat) (l : List Char) :
    digitsToNat (List.replicate k '0' ++ l) = digitsToNat l := by
  induction k with
  | zero => rfl
  | succ k ih =>
    have : List.replicate (k + 1) '0' ++ l = '0' :: (List.replicate k '0' ++ l) := by
      simp [List.replicate_succ]
    rw [this]
    show List.foldl _ (10 * 0 + ('0'.toNat - 48)) _ = _
    simpa [digitsToNat] using ih

theorem digitsToNat_pad6 (n : Nat) : digitsToNat (pad6 n) = n := by
  rw [pad6, digitsToNat_replicate_zero, toDec_val]

theorem pad6_ne_nil (n : Nat) : pad6 n ≠ [] := by
  intro h
  rw [pad6] at h
  rcases List.append_eq_nil.mp h with ⟨-, h2⟩
  exact toDec_ne_nil n h2

theorem pad6_isDigit (n : Nat) : ∀ c ∈ pad6 n, c.isDigit = true := by
  intro c hc
  rw [pad6, List.mem_append] at hc
  rcases hc with hc | hc
  · rw [List.eq_of_mem_replicate hc]
    rfl
  · exact toDec_isDigit n c hc

theorem toDec_length_le (k : Nat) (n : Nat) (hk : 1 ≤ k) (h : n < 10 ^ k) :
    (toDec n).length ≤ k := by
  induction n using Nat.strong_induction_on generalizing k with
  | _ n ih =>
    rw [toDec_eq]
    split
    · simp
      omega
    · next hn =>
      have h2 : 2 ≤ k := by
        by_contra hlt
        have : k = 1 := by omega
        subst this
        simp at h
        omega
      have hdiv : n / 10 < 10 ^ (k - 1) := by
        rw [Nat.div_lt_iff_lt_mul (by omega)]
        calc n < 10 ^ k := h
        _ = 10 ^ (k - 1) * 10 := by
              rw [← Nat.pow_succ]
              congr 1
              omega
      have := ih (n / 10) (Nat.div_lt_self (by omega) (by omega)) (k - 1) (by omega) hdiv
      simp
      omega

theorem toDec_length_ge (k : Nat) (n : Nat) (h : 10 ^ k ≤ n) :
    k + 1 ≤ (toDec n).length := by
  induction n using Nat.strong_induction_on generalizing k with
  | _ n ih =>
    rw [toDec_eq]
    split
    · next hn =>
      have : k = 0 := by
        by_contra hk
        have : 10 ≤ 10 ^ k := by
          calc 10 = 10 ^ 1 := by norm_num
          _ ≤ 10 ^ k := Nat.pow_le_pow_right (by omega) (by omega)
        omega
      subst this
      simp
    · next hn =>
      rcases Nat.eq_zero_or_pos k with hk | hk
      · subst hk
        simp
      · have hdiv : 10 ^ (k - 1) ≤ n / 10 := by
          rw [Nat.le_div_iff_mul_le (by omega)]
          calc 10 ^ (k - 1) * 10 = 10 ^ k := by
                rw [← Nat.pow_succ]
                congr 1
                omega
          _ ≤ n := h
        have := ih (n / 10) (Nat.div_lt_self (by omega) (by omega)) (k - 1) hdiv
        simp
        omega

theorem toDec_head_ne_zero (n : Nat) (h : 1 ≤ n) : (toDec n).head? ≠ some '0' := by
  induction n using Nat.strong_induction_on with
  | _ n ih =>
    rw [toDec_eq]
    split
    · next hn =>
      simp
      interval_cases n <;> decide
    · next hn =>
      have hne := toDec_ne_nil (n / 10)
      rcases hd : toDec (n / 10) with _ | ⟨c, t⟩
      · exact absurd hd hne
      · have := ih (n / 10) (Nat.div_lt_self (by omega) (by omega))
          (by
            have : 1 ≤ n / 10 := Nat.one_le_div_iff (by omega) |>.mpr (by omega)
            exact this)
        rw [hd] at this
        simpa using this

/-! ### Generic takeWhile / dropWhile helpers -/

theorem takeWhile_of_all {α} {p : α → Bool} :
    ∀ l : List α, (∀ c ∈ l, p c = true) → l.takeWhile p = l := by
  intro l h
  induction l with
  | nil => rfl
  | cons c rest ih =>
    rw [List.takeWhile_cons, h c (by simp)]
    simp [ih fun x hx => h x (by simp [hx])]

theorem takeWhile_app_stop {α} {p : α → Bool} (l : List α) (x : α) (r : List α)
    (hl : ∀ c ∈ l, p c = true) (hx : p x = false) :
    (l ++ x :: r).takeWhile p = l := by
  induction l with
  | nil => simp [List.takeWhile_cons, hx]
  | cons c rest ih =>
    rw [List.cons_append, List.takeWhile_cons, hl c (by simp)]
    simp [ih fun a ha => hl a (by simp [ha])]

theorem dropWhile_app_stop {α} {p : α → Bool} (l : List α) (x : α) (r : List α)
    (hl : ∀ c ∈ l, p c = true) (hx : p x = false) :
    (l ++ x :: r).dropWhile p = x :: r := by
  induction l with
  | nil => simp [List.dropWhile_cons, hx]
  | cons c rest ih =>
    rw [List.cons_append, List.dropWhile_cons]
    simp only [hl c (by simp), if_true]
    exact ih fun a ha => hl a (by simp [ha])

theorem takeWhile_app_all {α} {p : α → Bool} (l r : List α)
    (hl : ∀ c ∈ l, p c = true) :
    (l ++ r).takeWhile p = l ++ r.takeWhile p := by
  induction l with
  | nil => rfl
  | cons c rest ih =>
    rw [List.cons_append, List.takeWhile_cons, hl c (by simp)]
    simp [ih fun a ha => hl a (by simp [ha])]

theorem dropWhile_app_all {α} {p : α → Bool} (l r : List α)
    (hl : ∀ c ∈ l, p c = true) :
    (l ++ r).dropWhile p = r.dropWhile p := by
  induction l with
  | nil => rfl
  | cons c rest ih =>
    rw [List.cons_append, List.dropWhile_cons]
    simp only [hl c (by simp), if_true]
    exact ih fun a ha => hl a (by simp [ha])

theorem all_of_dropWhile_nil {α} {p : α → Bool} :
    ∀ l : List α, l.dropWhile p = [] → ∀ c ∈ l, p c = true := by
  intro l h c hc
  induction l with
  | nil => simp at hc
  | cons a rest ih =>
    rw [List.dropWhile_cons] at h
    by_cases hp : p a = true
    · simp only [hp, if_true] at h
      rcases List.mem_cons.mp hc with rfl | hc'
      · exact hp
      · exact ih h hc'
    · simp [hp] at h

theorem dropWhile_head_false {α} {p : α → Bool} :
    ∀ (l : List α) (x : α) (t : List α), l.dropWhile p = x :: t → p x = false := by
  intro l x t h
  induction l with
  | nil => simp at h
  | cons a rest ih =>
    rw [List.dropWhile_cons] at h
    by_cases hp : p a = true
    · simp only [hp, if_true] at h
      exact ih h
    · simp only [Bool.not_eq_true] at hp
      simp [hp] at h
      rw [← h.1]
      exact hp

theorem mem_of_mem_dropWhile {α} {p : α → Bool} :
    ∀ (l : List α) (a : α), a ∈ l.dropWhile p → a ∈ l := by
  intro l a h
  induction l with
  | nil => simp at h
  | cons c rest ih =>
    rw [List.dropWhile_cons] at h
    by_cases hp : p c = true
    · simp only [hp, if_true] at h
      exact List.mem_cons_of_mem _ (ih h)
    · simp only [Bool.not_eq_true] at hp
      simp [hp] at h
      simpa using h

/-! ### Filesystem path model (`os.path.join`, `os.path.basename`) -/

/-- `os.path.join(a, b)` for POSIX paths and two components. -/
def pathJoin (a b : String) : String :=
  if b.data.headD ' ' = '/' then b
  else if a.data = [] ∨ a.data.getLast? = some '/' then ⟨a.data ++ b.data⟩
  else ⟨a.data ++ '/' :: b.data⟩

theorem pathJoin_right_inj (td x y : String)
    (hx : x.data.headD ' ' ≠ '/') (hy : y.data.headD ' ' ≠ '/')
    (h : pathJoin td x = pathJoin td y) : x = y := by
  rw [pathJoin, pathJoin, if_neg hx, if_neg hy] at h
  by_cases hc : td.data = [] ∨ td.data.getLast? = some '/'
  · rw [if_pos hc, if_pos hc] at h
    have h2 : td.data ++ x.data = td.data ++ y.data := congrArg String.data h
    cases x
    cases y
    exact congrArg String.mk (List.append_cancel_left h2)
  · rw [if_neg hc, if_neg hc] at h
    have h2 : td.data ++ '/' :: x.data = td.data ++ '/' :: y.data := congrArg String.data h
    have h3 := List.append_cancel_left h2
    cases x
    cases y
    exact congrArg String.mk (by simpa using h3)

/-- `os.path.basename(p)` for POSIX paths: the part after the last slash. -/
def basenameL (l : List Char) : List Char :=
  (l.reverse.takeWhile (fun c => c != '/')).reverse

def basename (s : String) : String := ⟨basenameL s.data⟩

/-! ### src/program.py : grouping images by developer -/

/-- Python `filename.split('_')` (nonempty separator, keeps empty fields). -/
def splitU : List Char → List (List Char)
  | [] => [[]]
  | c :: rest =>
    match splitU rest with
    | [] => [[]]
    | s :: ss => if c = '_' then [] :: s :: ss else (c :: s) :: ss

/-- `parts[0]` of the split (defined because the split is never empty). -/
def firstSegL (l : List Char) : List Char := (splitU l).headD []

/-- `parts[0].startswith('Dev')`. -/
def startsWithDev (l : List Char) : Bool :=
  match l with
  | 'D' :: 'e' :: 'v' :: _ => true
  | _ => false

/-- Append `v` to the group keyed `k`, creating the key at the end if absent,
as `defaultdict(list)` with insertion-ordered keys does. -/
def addToGroup : List (String × List String) → String → String → List (String × List String)
  | [], k, v => [(k, [v])]
  | g :: gs, k, v => if g.1 = k then (g.1, g.2 ++ [v]) :: gs else g :: addToGroup gs k v

def findGroup : List (String × List String) → String → Option (List String)
  | [], _ => none
  | g :: gs, k => if g.1 = k then some g.2 else findGroup gs k

/-- One iteration of the grouping loop of `group_images_by_developer`. -/
def devStep (gs : List (String × List String)) (img : String) : List (String × List String) :=
  if startsWithDev (firstSegL (basenameL img.data)) then
    addToGroup gs ⟨firstSegL (basenameL img.data)⟩ img
  else gs

/-- The `grouped_images` dictionary before the per-developer limit is applied. -/
def buildGroups (images : List String) : List (String × List String) :=
  images.foldl devStep []

/-- Console lines printed for skipped (non-`Dev`) files. -/
def skippedLogs (images : List String) : List String :=
  (images.filter fun img => !startsWithDev (firstSegL (basenameL img.data))).map
    fun img => "Skipping invalid file: " ++ basename img

/-- `group_images_by_developer(images, limit)`: group by the first
underscore-delimited segment of the basename when it starts with `Dev`,
then truncate every group to the first `limit` entries. -/
def group_images_by_developer (images : List String) (limit : Nat) :
    List (String × List String) :=
  (buildGroups images).map fun g => (g.1, g.2.take limit)

/-! ### src/program.py : per-group encoding and the 2x2 grid command -/

/-- `f"group_{group_index}.txt"`. -/
def groupManifestName (i : Nat) : String := ⟨"group_".data ++ toDec i ++ ".txt".data⟩

/-- `f"group_{group_index}.mp4"`. -/
def groupVideoName (i : Nat) : String := ⟨"group_".data ++ toDec i ++ ".mp4".data⟩

theorem groupManifestName_inj {i j : Nat} (h : groupManifestName i = groupManifestName j) :
    i = j := by
  have h2 := congrArg String.data h
  simp only [groupManifestName] at h2
  exact toDec_inj (List.append_cancel_left (List.append_cancel_right h2))

theorem groupVideoName_inj {i j : Nat} (h : groupVideoName i = groupVideoName j) :
    i = j := by
  have h2 := congrArg String.data h
  simp only [groupVideoName] at h2
  exact toDec_inj (List.append_cancel_left (List.append_cancel_right h2))

theorem groupManifestName_head (i : Nat) :
    (groupManifestName i).data.headD ' ' = 'g' := rfl

theorem groupVideoName_head (i : Nat) :
    (groupVideoName i).data.headD ' ' = 'g' := rfl

/-- Path of the manifest written by `create_ffmpeg_input_file`. -/
def create_ffmpeg_input_file_path (groupIndex : Nat) (tempDir : String) : String :=
  pathJoin tempDir (groupManifestName groupIndex)

/-- Lines written to the manifest: `file '<img_path>'`, one per image. -/
def create_ffmpeg_input_file_lines (group : List String) : List String :=
  group.map fun p => "file '" ++ p ++ "'"

/-- Outcome of one `subprocess.run` invocation of the external tool. -/
inductive ProcOutcome where
  | success
  | failure (err : String) (stderr : String)

/-- Observable result of `create_video_from_group`: the manifest it wrote,
the intermediate video path it returns, and its console output. -/
structure EncodeRun where
  manifest : String
  manifestLines : List String
  video : String
  cmd : List String
  logs : List String

/-- The ffmpeg argument list built by `create_video_from_group`. -/
def ffmpegGroupCmd (inputFile : String) (frameRate : Nat) (intermediate ffmpegPath : String) :
    List String :=
  [ffmpegPath, "-y", "-f", "concat", "-safe", "0", "-i", inputFile,
   "-vf", "scale=960:-1", "-r", decStr frameRate, intermediate]

/-- `create_video_from_group(group, group_index, frame_rate, temp_dir, ffmpeg_path)`.
The external process is an oracle (`outcome`); a `CalledProcessError` is caught:
the error and the captured stderr are printed and the function still returns
the intermediate video path.  (The success-path timestamp is omitted.) -/
def create_video_from_group (group : List String) (groupIndex frameRate : Nat)
    (tempDir ffmpegPath : String) (outcome : ProcOutcome) : EncodeRun :=
  { manifest := create_ffmpeg_input_file_path groupIndex tempDir
    manifestLines := create_ffmpeg_input_file_lines group
    video := pathJoin tempDir (groupVideoName groupIndex)
    cmd := ffmpegGroupCmd (create_ffmpeg_input_file_path groupIndex tempDir) frameRate
      (pathJoin tempDir (groupVideoName groupIndex)) ffmpegPath
    logs :=
      match outcome with
      | .success => ["Created video for group " ++ decStr (groupIndex + 1)]
      | .failure err stderr =>
          ["Error while creating video for group " ++ decStr (groupIndex + 1) ++ ": " ++ err,
           "FFmpeg stderr: " ++ stderr] }

/-- Step 1 of `create_video_from_grouped_images`:
`executor.map(lambda idx_group: create_video_from_group(idx_group[1], idx_group[0], ...),
enumerate(groups))` collected into `intermediate_videos`.
`ThreadPoolExecutor.map` yields results in the order of its input iterable
regardless of completion order, so it is modelled as an order-preserving map
over the enumerated group list. -/
def create_video_from_grouped_images_videos (groups : List (List String))
    (frameRate : Nat) (tempDir ffmpegPath : String) (outcome : Nat → ProcOutcome) :
    List String :=
  groups.enum.map fun ig =>
    (create_video_from_group ig.2 ig.1 frameRate tempDir ffmpegPath (outcome ig.1)).video

/-- The `-filter_complex` graph of step 2, exactly as concatenated in the source. -/
def filterComplex : String :=
  "nullsrc=size=1920x1080 [base];" ++
  "[3:v] setpts=PTS-STARTPTS, scale=960x540 [upperleft];" ++
  "[0:v] setpts=PTS-STARTPTS, scale=960x540 [upperright];" ++
  "[1:v] setpts=PTS-STARTPTS, scale=960x540 [lowerleft];" ++
  "[2:v] setpts=PTS-STARTPTS, scale=960x540 [lowerright];" ++
  "[base][upperleft] overlay=shortest=1 [tmp1];" ++
  "[tmp1][upperright] overlay=W/2:0 [tmp2];" ++
  "[tmp2][lowerleft] overlay=0:H/2 [tmp3];" ++
  "[tmp3][lowerright] overlay=W/2:H/2"

/-- Step 2 of `create_video_from_grouped_images`: the grid ffmpeg argument
list (`grid_cmd`), with one `-i <video>` pair per intermediate clip. -/
def create_video_from_grouped_images_grid_cmd (intermediateVideos : List String)
    (outputPath ffmpegPath : String) : List String :=
  [ffmpegPath, "-y"] ++ (intermediateVideos.map fun v => ["-i", v]).flatten ++
  ["-c:v", "libx264", "-preset", "fast", "-crf", "23", "-filter_complex", filterComplex,
   outputPath]

/-! ### src/rename.py : the regex `(.*_fn)(\d+)(\..+)` under `re.search`

`re.search` scans start positions left to right; at a given start the
greedy `.*` tries the longest extent first (never crossing a newline),
then the literal `_fn`, then the maximal nonempty digit run, then a
literal dot, then at least one non-newline character (greedy).  `tryStart`
is the matcher anchored at one start position; `reSearch` adds the
leftmost-start scan. -/

/-- The regex `.` metacharacter: any character except newline. -/
def reDot (c : Char) : Bool := c != '\n'

/-- Matches `(\d+)(\..+)` against `rest` (what follows the literal `_fn`),
returning groups 2 and 3 of the regex.  Backtracking inside `\d+` can
never help (a shorter run leaves a digit where the dot must be), so only
the maximal digit run is considered, as the engine effectively does. -/
def afterFn (rest : List Char) : Option (List Char × List Char) :=
  match rest.dropWhile Char.isDigit with
  | c :: tail =>
    if rest.takeWhile Char.isDigit = [] then none
    else if c = '.' then
      (if tail.takeWhile reDot = [] then none
       else some (rest.takeWhile Char.isDigit, '.' :: tail.takeWhile reDot))
    else none
  | [] => none

/-- Matches the literal `_fn` followed by `(\d+)(\..+)`. -/
def matchFnTail (l : List Char) : Option (List Char × List Char) :=
  match l with
  | a :: b :: c :: rest =>
    if a = '_' ∧ b = 'f' ∧ c = 'n' then afterFn rest else none
  | _ => none

/-- The regex anchored at the head of `l`: the greedy `.*` prefers the
deepest start of `_fn` it can reach without crossing a newline.  Returns
`(group 1, group 2, group 3)`. -/
def tryStart (l : List Char) : Option (List Char × List Char × List Char) :=
  match l with
  | [] => none
  | c :: rest =>
    match (if reDot c = true then tryStart rest else none) with
    | some r => some (c :: r.1, r.2.1, r.2.2)
    | none =>
      match matchFnTail (c :: rest) with
      | some p => some (['_', 'f', 'n'], p.1, p.2)
      | none => none

/-- `re.search(r'(.*_fn)(\d+)(\..+)', s)`: the leftmost start position
at which the anchored matcher succeeds. -/
def reSearch (l : List Char) : Option (List Char × List Char × List Char) :=
  match l with
  | [] => none
  | c :: rest =>
    match tryStart (c :: rest) with
    | some r => some r
    | none => reSearch rest

/-- The new file name on a regex match:
`f"{prefix}{int(number):06}{suffix}"`; an unmatched name is unchanged. -/
def newNameL (l : List Char) : List Char :=
  match reSearch l with
  | none => l
  | some (g1, ds, g3) => g1 ++ pad6 (digitsToNat ds) ++ g3

/-- Extension allow-list of `rename.py` (checked case-insensitively). -/
def imageExts : List String :=
  [".png", ".jpg", ".jpeg", ".gif", ".bmp", ".tiff", ".webp"]

/-- `file_name.lower().endswith(imageExts)` (ASCII lowering). -/
def hasImageExt (s : String) : Bool :=
  imageExts.any fun e => e.data.isSuffixOf (s.data.map Char.toLower)

/-- The complete per-file name transformation of the renamer loop body. -/
def renameFileName (s : String) : String :=
  if hasImageExt s then ⟨newNameL s.data⟩ else s

/-- Outcome of one `os.rename` call. -/
inductive FsOutcome where
  | ok
  | raises (msg : String)

def renamedLog (old new : String) : String :=
  "Renamed: " ++ old ++ " -> " ++ new

/-- The `for file_name in os.listdir(folder_path)` loop of
`rename_files_in_folder`.  Returns the renames performed and the console
lines printed.  The loop sits inside a single try/except, so the first
exception raised by an attempted rename abandons the rest of the listing
and prints the generic error message. -/
def renLoop : List (String × FsOutcome) → List (String × String) × List String
  | [] => ([], [])
  | (name, oc) :: rest =>
    if hasImageExt name then
      match reSearch name.data with
      | some (g1, ds, g3) =>
        match oc with
        | .ok =>
          ((name, ⟨g1 ++ pad6 (digitsToNat ds) ++ g3⟩) :: (renLoop rest).1,
           renamedLog name ⟨g1 ++ pad6 (digitsToNat ds) ++ g3⟩ :: (renLoop rest).2)
        | .raises m => ([], ["An error occurred: " ++ m])
      | none => renLoop rest
    else renLoop rest

/-- `rename_files_in_folder(folder_path)`: `listing = none` models
`os.listdir` raising `FileNotFoundError`; both handlers only print, so
no exception propagates past this function. -/
def rename_files_in_folder (folderPath : String)
    (listing : Option (List (String × FsOutcome))) :
    List (String × String) × List String :=
  match listing with
  | none => ([], ["The folder '" ++ folderPath ++ "' does not exist."])
  | some files => renLoop files

/-! ### Structure of the greedy matcher (toward idempotence of the renamer) -/

theorem reDot_iff {c : Char} : reDot c = true ↔ c ≠ '\n' := by
  simp [reDot]

theorem isDigit_ne_underscore {c : Char} (h : c.isDigit = true) : c ≠ '_' := by
  intro e
  rw [e] at h
  exact absurd h (by decide)

theorem isDigit_reDot {c : Char} (h : c.isDigit = true) : reDot c = true := by
  rcases eq_or_ne c '\n' with e | e
  · rw [e] at h
    exact absurd h (by decide)
  · exact reDot_iff.mpr e

theorem tryStart_cons (c : Char) (rest : List Char) :
    tryStart (c :: rest) =
      match (if reDot c = true then tryStart rest else none) with
      | some r => some (c :: r.1, r.2.1, r.2.2)
      | none =>
        match matchFnTail (c :: rest) with
        | some p => some (['_', 'f', 'n'], p.1, p.2)
        | none => none := rfl

theorem matchFnTail_head_ne {c : Char} (l : List Char) (h : c ≠ '_') :
    matchFnTail (c :: l) = none := by
  rcases l with _ | ⟨x, _ | ⟨y, zs⟩⟩ <;> simp [matchFnTail]
  intro hc
  exact absurd hc h

theorem afterFn_some {rest ds g3 : List Char} (h : afterFn rest = some (ds, g3)) :
    ds = rest.takeWhile Char.isDigit ∧ ds ≠ [] ∧
    ∃ tail, rest.dropWhile Char.isDigit = '.' :: tail ∧
      g3 = '.' :: tail.takeWhile reDot ∧ tail.takeWhile reDot ≠ [] := by
  rw [afterFn] at h
  rcases hdrop : rest.dropWhile Char.isDigit with _ | ⟨c, tail⟩ <;> rw [hdrop] at h <;>
    dsimp only at h
  · exact Option.noConfusion h
  · by_cases h1 : rest.takeWhile Char.isDigit = []
    · rw [if_pos h1] at h
      exact Option.noConfusion h
    · rw [if_neg h1] at h
      by_cases h2 : c = '.'
      · rw [if_pos h2] at h
        by_cases h3 : tail.takeWhile reDot = []
        · rw [if_pos h3] at h
          exact Option.noConfusion h
        · rw [if_neg h3] at h
          simp only [Option.some.injEq, Prod.mk.injEq] at h
          subst h2
          exact ⟨h.1.symm, h.1 ▸ h1, tail, rfl, h.2.symm, h3⟩
      · rw [if_neg h2] at h
        exact Option.noConfusion h

theorem matchFnTail_some {l ds g3 : List Char} (h : matchFnTail l = some (ds, g3)) :
    ∃ rest, l = '_' :: 'f' :: 'n' :: rest ∧ afterFn rest = some (ds, g3) := by
  rcases l with _ | ⟨a, _ | ⟨b, _ | ⟨c, rest⟩⟩⟩
  · exact Option.noConfusion h
  · exact Option.noConfusion h
  · exact Option.noConfusion h
  · have h' : (if a = '_' ∧ b = 'f' ∧ c = 'n' then afterFn rest else none) = some (ds, g3) := h
    by_cases hc : a = '_' ∧ b = 'f' ∧ c = 'n'
    · obtain ⟨rfl, rfl, rfl⟩ := hc
      rw [if_pos ⟨rfl, rfl, rfl⟩] at h'
      exact ⟨rest, rfl, h'⟩
    · rw [if_neg hc] at h'
      exact Option.noConfusion h'

theorem afterFn_digits_dot (P d : List Char) (hP : ∀ c ∈ P, c.isDigit = true)
    (hPne : P ≠ []) (hd : ∀ c ∈ d, reDot c = true) (hdne : d ≠ []) :
    afterFn (P ++ '.' :: d) = some (P, '.' :: d) := by
  have htake : (P ++ '.' :: d).takeWhile Char.isDigit = P :=
    takeWhile_app_stop P '.' d hP (by decide)
  have hdrop : (P ++ '.' :: d).dropWhile Char.isDigit = '.' :: d :=
    dropWhile_app_stop P '.' d hP (by decide)
  rw [afterFn, hdrop]
  dsimp only
  rw [htake, if_neg hPne, if_pos rfl, takeWhile_of_all d hd, if_neg hdne]

/-- A successful anchored match decomposes the input: group 1 is the greedy
prefix plus the literal `_fn`, groups 2 and 3 come from `afterFn`, and no
match starts deeper (greediness). -/
theorem tryStart_some_structure :
    ∀ l g1 ds g3, tryStart l = some (g1, ds, g3) →
      ∃ A rest, l = A ++ '_' :: 'f' :: 'n' :: rest ∧ g1 = A ++ ['_', 'f', 'n'] ∧
        (∀ c ∈ A, reDot c = true) ∧ afterFn rest = some (ds, g3) ∧
        tryStart ('f' :: 'n' :: rest) = none := by
  intro l
  induction l with
  | nil => intro g1 ds g3 h; exact Option.noConfusion h
  | cons c rest ih =>
    intro g1 ds g3 h
    by_cases hdot : reDot c = true
    · rw [tryStart_cons, if_pos hdot] at h
      rcases hts : tryStart rest with _ | ⟨r1, r2, r3⟩ <;> rw [hts] at h <;> dsimp only at h
      · rcases hmt : matchFnTail (c :: rest) with _ | ⟨p1, p2⟩ <;> rw [hmt] at h <;>
          dsimp only at h
        · exact Option.noConfusion h
        · simp only [Option.some.injEq, Prod.mk.injEq] at h
          obtain ⟨rest', heq, haf⟩ := matchFnTail_some hmt
          rw [List.cons.injEq] at heq
          obtain ⟨hc, hfn⟩ := heq
          subst hc
          refine ⟨[], rest', ?_, ?_, ?_, ?_, ?_⟩
          · rw [hfn]
            rfl
          · rw [← h.1]
            rfl
          · simp
          · rw [haf, h.2.1, h.2.2]
          · rw [← hfn]
            exact hts
      · simp only [Option.some.injEq, Prod.mk.injEq] at h
        obtain ⟨A, rest', hl, hg1, hA, haf, hno⟩ := ih r1 r2 r3 hts
        refine ⟨c :: A, rest', by rw [List.cons_append, hl], ?_, ?_, ?_, hno⟩
        · rw [← h.1, hg1, List.cons_append]
        · intro x hx
          rcases List.mem_cons.mp hx with rfl | hx'
          · exact hdot
          · exact hA x hx'
        · rw [haf, h.2.1, h.2.2]
    · rw [tryStart_cons, if_neg hdot] at h
      dsimp only at h
      rcases hmt : matchFnTail (c :: rest) with _ | ⟨p1, p2⟩ <;> rw [hmt] at h <;>
        dsimp only at h
      · exact Option.noConfusion h
      · obtain ⟨rest', heq, -⟩ := matchFnTail_some hmt
        rw [List.cons.injEq] at heq
        obtain ⟨hc, -⟩ := heq
        subst hc
        exact absurd (by decide : reDot '_' = true) hdot

/-- Converse construction: the decomposition determines the match. -/
theorem tryStart_of_parts :
    ∀ (A rest ds g3 : List Char), (∀ c ∈ A, reDot c = true) →
      afterFn rest = some (ds, g3) → tryStart ('f' :: 'n' :: rest) = none →
      tryStart (A ++ '_' :: 'f' :: 'n' :: rest) = some (A ++ ['_', 'f', 'n'], ds, g3) := by
  intro A
  induction A with
  | nil =>
    intro rest ds g3 _ haf hno
    rw [List.nil_append, tryStart_cons, if_pos (by decide : reDot '_' = true), hno]
    have hmt : matchFnTail ('_' :: 'f' :: 'n' :: rest) = afterFn rest := by
      rw [matchFnTail, if_pos ⟨rfl, rfl, rfl⟩]
    dsimp only
    rw [hmt, haf]
    rfl
  | cons a A ih =>
    intro rest ds g3 hA haf hno
    rw [List.cons_append, tryStart_cons,
      if_pos (hA a (by simp)),
      ih rest ds g3 (fun c hc => hA c (by simp [hc])) haf hno]
    rfl

/-- Characters that can never start a match (not `_`) and that the greedy
prefix may consume (not a newline) can be peeled off the front without
affecting whether any match exists. -/
theorem tryStart_walk (m : List Char) (l : List Char)
    (hm : ∀ c ∈ m, c ≠ '_' ∧ reDot c = true) :
    tryStart (m ++ l) = none ↔ tryStart l = none := by
  induction m with
  | nil => rfl
  | cons c m ih =>
    have hc := hm c (by simp)
    have ihm := ih fun a ha => hm a (by simp [ha])
    rw [List.cons_append, tryStart_cons, if_pos hc.2]
    rcases hts : tryStart (m ++ l) with _ | r <;> dsimp only
    · rw [matchFnTail_head_ne (m ++ l) hc.1]
      dsimp only
      rw [← ihm]
      simp [hts]
    · rw [← ihm]
      simp [hts]

/-- Lists of matchable characters behave the same whether or not dead
material (nothing, or a newline-headed remainder) follows them. -/
theorem afterFn_append_extra (r extra : List Char) (hr : ∀ c ∈ r, reDot c = true)
    (he : extra = [] ∨ ∃ t, extra = '\n' :: t) :
    afterFn (r ++ extra) = afterFn r := by
  have hextra_digit : extra.takeWhile Char.isDigit = [] ∧
      extra.dropWhile Char.isDigit = extra := by
    rcases he with rfl | ⟨t, rfl⟩
    · exact ⟨rfl, rfl⟩
    · exact ⟨by rw [List.takeWhile_cons_of_neg (by decide)],
        by rw [List.dropWhile_cons_of_neg (by decide)]⟩
  have hextra_dot : extra.takeWhile reDot = [] := by
    rcases he with rfl | ⟨t, rfl⟩
    · rfl
    · rw [List.takeWhile_cons_of_neg (by simp [reDot])]
  rcases hdw : r.dropWhile Char.isDigit with _ | ⟨x, t⟩
  · have hall : ∀ c ∈ r, Char.isDigit c = true := all_of_dropWhile_nil r hdw
    have h1 : (r ++ extra).takeWhile Char.isDigit = r := by
      rw [takeWhile_app_all r extra hall, hextra_digit.1, List.append_nil]
    have h2 : (r ++ extra).dropWhile Char.isDigit = extra := by
      rw [dropWhile_app_all r extra hall, hextra_digit.2]
    rw [afterFn, afterFn, h1, h2, hdw]
    rcases he with rfl | ⟨t, rfl⟩
    · rfl
    · dsimp only
      by_cases hre : r = []
      · rw [if_pos hre]
      · rw [if_neg hre, if_neg (by decide : ¬('\n' = '.'))]
  · have hx : Char.isDigit x = false := dropWhile_head_false r x t hdw
    have hsplit : r.takeWhile Char.isDigit ++ x :: t = r := by
      rw [← hdw, List.takeWhile_append_dropWhile]
    have htw : ∀ c ∈ r.takeWhile Char.isDigit, Char.isDigit c = true :=
      fun c hc => List.mem_takeWhile_imp hc
    have h1 : (r ++ extra).takeWhile Char.isDigit = r.takeWhile Char.isDigit := by
      conv_lhs => rw [← hsplit]
      rw [List.append_assoc, List.cons_append,
        takeWhile_app_stop _ x (t ++ extra) htw hx]
    have h2 : (r ++ extra).dropWhile Char.isDigit = x :: (t ++ extra) := by
      conv_lhs => rw [← hsplit]
      rw [List.append_assoc, List.cons_append,
        dropWhile_app_stop _ x (t ++ extra) htw hx]
    rw [afterFn, afterFn, h1, h2, hdw]
    dsimp only
    by_cases hds : r.takeWhile Char.isDigit = []
    · rw [if_pos hds, if_pos hds]
    · rw [if_neg hds, if_neg hds]
      by_cases hxd : x = '.'
      · rw [if_pos hxd, if_pos hxd]
        have ht : ∀ c ∈ t, reDot c = true := by
          intro c hc
          refine hr c ?_
          have : c ∈ x :: t := by simp [hc]
          rw [← hdw] at this
          exact mem_of_mem_dropWhile r c this
        have h3 : (t ++ extra).takeWhile reDot = t.takeWhile reDot := by
          rw [takeWhile_app_all t extra ht, hextra_dot, List.append_nil,
            takeWhile_of_all t ht]
        rw [h3]
      · rw [if_neg hxd, if_neg hxd]

theorem matchFnTail_append_extra (l extra : List Char) (hl : ∀ c ∈ l, reDot c = true)
    (he : extra = [] ∨ ∃ t, extra = '\n' :: t) :
    matchFnTail (l ++ extra) = matchFnTail l := by
  rcases l with _ | ⟨a, _ | ⟨b, _ | ⟨c, rest⟩⟩⟩
  · rcases he with rfl | ⟨t, rfl⟩
    · rfl
    · rw [List.nil_append, matchFnTail_head_ne t (by decide)]
      rfl
  · rcases he with rfl | ⟨t, rfl⟩
    · rfl
    · rcases t with _ | ⟨u, t'⟩
      · rfl
      · show (if a = '_' ∧ '\n' = 'f' ∧ u = 'n' then afterFn t' else none) = none
        simp
  · rcases he with rfl | ⟨t, rfl⟩
    · rfl
    · show (if a = '_' ∧ b = 'f' ∧ '\n' = 'n' then afterFn t else none) = none
      simp
  · show (if a = '_' ∧ b = 'f' ∧ c = 'n' then afterFn (rest ++ extra) else none) =
      (if a = '_' ∧ b = 'f' ∧ c = 'n' then afterFn rest else none)
    by_cases hc : a = '_' ∧ b = 'f' ∧ c = 'n'
    · rw [if_pos hc, if_pos hc,
        afterFn_append_extra rest extra (fun x hx => hl x (by simp [hx])) he]
    · rw [if_neg hc, if_neg hc]

theorem tryStart_append_extra (r extra : List Char) (hr : ∀ c ∈ r, reDot c = true)
    (he : extra = [] ∨ ∃ t, extra = '\n' :: t) :
    tryStart (r ++ extra) = tryStart r := by
  induction r with
  | nil =>
    rcases he with rfl | ⟨t, rfl⟩
    · rfl
    · rw [List.nil_append, tryStart_cons, if_neg (by simp [reDot]),
        matchFnTail_head_ne t (by decide)]
      rfl
  | cons c r ih =>
    have hc := hr c (by simp)
    have ihr := ih fun a ha => hr a (by simp [ha])
    have hmt := matchFnTail_append_extra (c :: r) extra hr he
    rw [List.cons_append] at hmt
    rw [List.cons_append, tryStart_cons, tryStart_cons, if_pos hc, if_pos hc, ihr, hmt]

/-- On a newline-free string the leftmost-start scan adds nothing: a match
anywhere is already reachable from position zero. -/
theorem reSearch_eq_tryStart (l : List Char) (hl : ∀ c ∈ l, reDot c = true) :
    reSearch l = tryStart l := by
  induction l with
  | nil => rfl
  | cons c rest ih =>
    rcases hts : tryStart (c :: rest) with _ | r
    · have hrest : tryStart rest = none := by
        have h3 := hts
        rw [tryStart_cons, if_pos (hl c (by simp))] at h3
        rcases h2 : tryStart rest with _ | r2
        · rfl
        · rw [h2] at h3
          dsimp only at h3
          exact Option.noConfusion h3
      rw [reSearch, hts]
      dsimp only
      rw [ih fun a ha => hl a (by simp [ha]), hrest]
    · rw [reSearch, hts]

theorem reSearch_some_exists_tryStart :
    ∀ l r, reSearch l = some r → ∃ l', tryStart l' = some r := by
  intro l
  induction l with
  | nil => intro r h; exact Option.noConfusion h
  | cons c rest ih =>
    intro r h
    rw [reSearch] at h
    rcases hts : tryStart (c :: rest) with _ | r2 <;> rw [hts] at h <;> dsimp only at h
    · exact ih r h
    · exact ⟨c :: rest, hts.trans h⟩

/-- Re-running the search on a renamed name finds the same decomposition,
with the already-normalised digit run. -/
theorem reSearch_newNameL {l g1 ds g3 : List Char}
    (hs : reSearch l = some (g1, ds, g3)) :
    reSearch (newNameL l) = some (g1, pad6 (digitsToNat ds), g3) := by
  obtain ⟨l', hts⟩ := reSearch_some_exists_tryStart l _ hs
  obtain ⟨A, rest, hl', hg1, hA, haf, hno⟩ := tryStart_some_structure l' g1 ds g3 hts
  obtain ⟨hds, hdsne, tail, hdrop, hg3, hdne⟩ := afterFn_some haf
  have hd : ∀ c ∈ tail.takeWhile reDot, reDot c = true :=
    fun c hc => List.mem_takeWhile_imp hc
  have hdsdig : ∀ c ∈ ds, c.isDigit = true := by
    rw [hds]
    exact fun c hc => List.mem_takeWhile_imp hc
  have hP : ∀ c ∈ pad6 (digitsToNat ds), c.isDigit = true := pad6_isDigit _
  have hPne : pad6 (digitsToNat ds) ≠ [] := pad6_ne_nil _
  have hrest : rest = ds ++ '.' :: tail := by
    conv_lhs => rw [← List.takeWhile_append_dropWhile Char.isDigit rest]
    rw [← hds, hdrop]
  have htail : tail = tail.takeWhile reDot ++ tail.dropWhile reDot :=
    (List.takeWhile_append_dropWhile ..).symm
  have hextra : tail.dropWhile reDot = [] ∨ ∃ t, tail.dropWhile reDot = '\n' :: t := by
    rcases hx : tail.dropWhile reDot with _ | ⟨x, t⟩
    · exact Or.inl rfl
    · refine Or.inr ⟨t, ?_⟩
      have := dropWhile_head_false tail x t hx
      have hxn : x = '\n' := by
        by_contra hne
        rw [reDot_iff.mpr hne] at this
        exact Bool.noConfusion this
      rw [hxn]
  have hm1 : ∀ c ∈ 'f' :: 'n' :: ds, c ≠ '_' ∧ reDot c = true := by
    intro c hc
    rcases List.mem_cons.mp hc with rfl | hc
    · exact ⟨by decide, by decide⟩
    · rcases List.mem_cons.mp hc with rfl | hc
      · exact ⟨by decide, by decide⟩
      · exact ⟨isDigit_ne_underscore (hdsdig c hc), isDigit_reDot (hdsdig c hc)⟩
  have hm2 : ∀ c ∈ 'f' :: 'n' :: pad6 (digitsToNat ds), c ≠ '_' ∧ reDot c = true := by
    intro c hc
    rcases List.mem_cons.mp hc with rfl | hc
    · exact ⟨by decide, by decide⟩
    · rcases List.mem_cons.mp hc with rfl | hc
      · exact ⟨by decide, by decide⟩
      · exact ⟨isDigit_ne_underscore (hP c hc), isDigit_reDot (hP c hc)⟩
  have e1 : 'f' :: 'n' :: rest =
      (('f' :: 'n' :: ds) ++ '.' :: tail.takeWhile reDot) ++ tail.dropWhile reDot := by
    rw [hrest]
    conv_lhs => rw [htail]
    simp
  have hall1 : ∀ c ∈ ('f' :: 'n' :: ds) ++ '.' :: tail.takeWhile reDot, reDot c = true := by
    intro c hc
    rw [List.mem_append] at hc
    rcases hc with hc | hc
    · exact (hm1 c hc).2
    · rcases List.mem_cons.mp hc with rfl | hc
      · decide
      · exact hd c hc
  have h1 : tryStart (('f' :: 'n' :: ds) ++ '.' :: tail.takeWhile reDot) = none := by
    rw [e1] at hno
    rwa [tryStart_append_extra _ _ hall1 hextra] at hno
  have h2 : tryStart ('.' :: tail.takeWhile reDot) = none :=
    (tryStart_walk ('f' :: 'n' :: ds) _ hm1).mp h1
  have h3 : tryStart ('f' :: 'n' :: (pad6 (digitsToNat ds) ++ '.' :: tail.takeWhile reDot)) =
      none := by
    have := (tryStart_walk ('f' :: 'n' :: pad6 (digitsToNat ds)) _ hm2).mpr h2
    simpa using this
  have haf2 : afterFn (pad6 (digitsToNat ds) ++ '.' :: tail.takeWhile reDot) =
      some (pad6 (digitsToNat ds), '.' :: tail.takeWhile reDot) :=
    afterFn_digits_dot _ _ hP hPne hd hdne
  have hts2 := tryStart_of_parts A _ _ _ hA haf2 h3
  have ht_eq : newNameL l =
      A ++ '_' :: 'f' :: 'n' :: (pad6 (digitsToNat ds) ++ '.' :: tail.takeWhile reDot) := by
    rw [newNameL, hs, hg1, hg3]
    simp
  have hall2 : ∀ c ∈ newNameL l, reDot c = true := by
    rw [ht_eq]
    intro c hc
    rw [List.mem_append] at hc
    rcases hc with hc | hc
    · exact hA c hc
    · rcases List.mem_cons.mp hc with rfl | hc
      · decide
      · rcases List.mem_cons.mp hc with rfl | hc
        · decide
        · rcases List.mem_cons.mp hc with rfl | hc
          · decide
          · rw [List.mem_append] at hc
            rcases hc with hc | hc
            · exact isDigit_reDot (hP c hc)
            · rcases List.mem_cons.mp hc with rfl | hc
              · decide
              · exact hd c hc
  rw [reSearch_eq_tryStart _ hall2, ht_eq, hts2, ← hg1, hg3]

/-- The per-name transformation of the renamer is idempotent. -/
theorem newNameL_idem (l : List Char) : newNameL (newNameL l) = newNameL l := by
  rcases hs : reSearch l with _ | ⟨g1, ds, g3⟩
  · have hnone : newNameL l = l := by rw [newNameL, hs]
    rw [hnone, hnone]
  · have h2 := reSearch_newNameL hs
    have hL : newNameL l = g1 ++ pad6 (digitsToNat ds) ++ g3 := by
      rw [newNameL, hs]
    calc newNameL (newNameL l)
        = g1 ++ pad6 (digitsToNat (pad6 (digitsToNat ds))) ++ g3 := by
          rw [newNameL, h2]
      _ = g1 ++ pad6 (digitsToNat ds) ++ g3 := by rw [digitsToNat_pad6]
      _ = newNameL l := hL.symm

theorem renameFileName_idem (s : String) :
    renameFileName (renameFileName s) = renameFileName s := by
  by_cases h : hasImageExt s = true
  · have hs : renameFileName s = ⟨newNameL s.data⟩ := by rw [renameFileName, if_pos h]
    rw [hs]
    by_cases h2 : hasImageExt ⟨newNameL s.data⟩ = true
    · rw [renameFileName, if_pos h2]
      exact congrArg String.mk (newNameL_idem s.data)
    · rw [renameFileName, if_neg h2]
  · have hs : renameFileName s = s := by rw [renameFileName, if_neg h]
    rw [hs, hs]

/-! ### Properties of the grouping pass -/

theorem mem_getD_iff {p : String} {o : Option (List String)} :
    p ∈ o.getD [] ↔ ∃ l, o = some l ∧ p ∈ l := by
  cases o <;> simp

theorem findGroup_addToGroup_self (gs : List (String × List String)) (k v : String) :
    findGroup (addToGroup gs k v) k = some ((findGroup gs k).getD [] ++ [v]) := by
  induction gs with
  | nil => simp [addToGroup, findGroup]
  | cons g gs ih =>
    by_cases hg : g.1 = k
    · rw [addToGroup, if_pos hg, findGroup, if_pos hg, findGroup, if_pos hg]
      simp
    · rw [addToGroup, if_neg hg, findGroup, if_neg hg, findGroup, if_neg hg]
      exact ih

theorem findGroup_addToGroup_ne (gs : List (String × List String)) (k k' v : String)
    (h : k' ≠ k) : findGroup (addToGroup gs k v) k' = findGroup gs k' := by
  induction gs with
  | nil =>
    rw [addToGroup, findGroup, findGroup]
    dsimp only
    rw [if_neg (fun e => h e.symm)]
    rfl
  | cons g gs ih =>
    by_cases hg : g.1 = k
    · rw [addToGroup, if_pos hg, findGroup, findGroup]
      by_cases hg' : g.1 = k'
      · exact absurd (hg'.symm.trans hg) h
      · rw [if_neg hg', if_neg hg']
    · rw [addToGroup, if_neg hg, findGroup, findGroup]
      by_cases hg' : g.1 = k'
      · rw [if_pos hg', if_pos hg']
      · rw [if_neg hg', if_neg hg']
        exact ih

theorem mem_findGroup_devStep (gs : List (String × List String)) (img k p : String)
    (h : p ∈ (findGroup gs k).getD []) :
    p ∈ (findGroup (devStep gs img) k).getD [] := by
  rw [devStep]
  split
  · by_cases hk : (⟨firstSegL (basenameL img.data)⟩ : String) = k
    · rw [hk, findGroup_addToGroup_self]
      simp only [Option.getD_some]
      exact List.mem_append_left _ h
    · rw [findGroup_addToGroup_ne _ _ _ _ (fun e => hk e.symm)]
      exact h
  · exact h

theorem mem_findGroup_foldl (images : List String) (gs : List (String × List String))
    (k p : String) (h : p ∈ (findGroup gs k).getD []) :
    p ∈ (findGroup (images.foldl devStep gs) k).getD [] := by
  induction images generalizing gs with
  | nil => exact h
  | cons img images ih =>
    exact ih (devStep gs img) (mem_findGroup_devStep gs img k p h)

theorem mem_findGroup_foldl_of_mem (images : List String)
    (gs : List (String × List String)) (p : String) (hp : p ∈ images)
    (hdev : startsWithDev (firstSegL (basenameL p.data)) = true) :
    p ∈ (findGroup (images.foldl devStep gs) ⟨firstSegL (basenameL p.data)⟩).getD [] := by
  induction images generalizing gs with
  | nil => simp at hp
  | cons img images ih =>
    rcases List.mem_cons.mp hp with rfl | hp'
    · apply mem_findGroup_foldl images
      rw [devStep, if_pos hdev, findGroup_addToGroup_self]
      simp
    · exact ih (devStep gs img) hp'

theorem mem_findGroup_buildGroups (images : List String) (p : String)
    (hp : p ∈ images)
    (hdev : startsWithDev (firstSegL (basenameL p.data)) = true) :
    p ∈ (findGroup (buildGroups images) ⟨firstSegL (basenameL p.data)⟩).getD [] :=
  mem_findGroup_foldl_of_mem images [] p hp hdev

/-- Every path stored in any group has a `Dev`-prefixed first segment. -/
def GroupsDev (gs : List (String × List String)) : Prop :=
  ∀ g ∈ gs, ∀ p ∈ g.2, startsWithDev (firstSegL (basenameL p.data)) = true

theorem groupsDev_addToGroup (gs : List (String × List String)) (k v : String)
    (hgs : GroupsDev gs) (hv : startsWithDev (firstSegL (basenameL v.data)) = true) :
    GroupsDev (addToGroup gs k v) := by
  induction gs with
  | nil =>
    intro g hg p hp
    rw [addToGroup] at hg
    simp at hg
    subst hg
    simp at hp
    subst hp
    exact hv
  | cons g0 gs ih =>
    intro g hg p hp
    by_cases hk : g0.1 = k
    · rw [addToGroup, if_pos hk] at hg
      rcases List.mem_cons.mp hg with rfl | hg'
      · simp only at hp
        rcases List.mem_append.mp hp with hp' | hp'
        · exact hgs g0 (by simp) p hp'
        · simp at hp'
          subst hp'
          exact hv
      · exact hgs g (by simp [hg']) p hp
    · rw [addToGroup, if_neg hk] at hg
      rcases List.mem_cons.mp hg with rfl | hg'
      · exact hgs g (by simp) p hp
      · exact ih (fun g1 hg1 => hgs g1 (by simp [hg1])) g hg' p hp

theorem groupsDev_foldl (images : List String) (gs : List (String × List String))
    (hgs : GroupsDev gs) : GroupsDev (images.foldl devStep gs) := by
  induction images generalizing gs with
  | nil => exact hgs
  | cons img images ih =>
    apply ih
    rw [devStep]
    split
    · next hc => exact groupsDev_addToGroup gs _ img hgs hc
    · exact hgs

theorem groupsDev_buildGroups (images : List String) : GroupsDev (buildGroups images) :=
  groupsDev_foldl images [] (by intro g hg; simp at hg)

/-- Every group holds at most `n` paths. -/
def GroupsLen (gs : List (String × List String)) (n : Nat) : Prop :=
  ∀ g ∈ gs, g.2.length ≤ n

theorem groupsLen_mono {gs : List (String × List String)} {n m : Nat}
    (h : GroupsLen gs n) (hnm : n ≤ m) : GroupsLen gs m :=
  fun g hg => le_trans (h g hg) hnm

theorem groupsLen_addToGroup (gs : List (String × List String)) (k v : String) (n : Nat)
    (h : GroupsLen gs n) : GroupsLen (addToGroup gs k v) (n + 1) := by
  induction gs with
  | nil =>
    intro g hg
    rw [addToGroup] at hg
    simp at hg
    subst hg
    simp
  | cons g0 gs ih =>
    intro g hg
    by_cases hk : g0.1 = k
    · rw [addToGroup, if_pos hk] at hg
      rcases List.mem_cons.mp hg with rfl | hg'
      · simp only [List.length_append, List.length_cons, List.length_nil]
        have := h g0 (by simp)
        omega
      · have := h g (by simp [hg'])
        omega
    · rw [addToGroup, if_neg hk] at hg
      rcases List.mem_cons.mp hg with rfl | hg'
      · have := h g (by simp)
        omega
      · exact ih (fun g1 hg1 => h g1 (by simp [hg1])) g hg'

theorem groupsLen_devStep (gs : List (String × List String)) (img : String) (n : Nat)
    (h : GroupsLen gs n) : GroupsLen (devStep gs img) (n + 1) := by
  rw [devStep]
  split
  · exact groupsLen_addToGroup gs _ img n h
  · exact groupsLen_mono h (by omega)

theorem groupsLen_foldl (images : List String) (gs : List (String × List String)) (n : Nat)
    (h : GroupsLen gs n) : GroupsLen (images.foldl devStep gs) (n + images.length) := by
  induction images generalizing gs n with
  | nil => exact groupsLen_mono h (by simp)
  | cons img images ih =>
    have := ih (devStep gs img) (n + 1) (groupsLen_devStep gs img n h)
    exact groupsLen_mono this (by simp; omega)

theorem groupsLen_buildGroups (images : List String) :
    GroupsLen (buildGroups images) images.length := by
  have := groupsLen_foldl images [] 0 (by intro g hg; simp at hg)
  simpa using this

theorem findGroup_map_take (gs : List (String × List String)) (k : String) (N : Nat) :
    findGroup (gs.map fun g => (g.1, g.2.take N)) k =
      (findGroup gs k).map fun l => l.take N := by
  induction gs with
  | nil => rfl
  | cons g gs ih =>
    rw [List.map_cons, findGroup, findGroup]
    by_cases hk : g.1 = k
    · rw [if_pos hk, if_pos hk]
      rfl
    · rw [if_neg hk, if_neg hk]
      exact ih

theorem foldl_devStep_all_skipped (images : List String)
    (gs : List (String × List String))
    (h : ∀ q ∈ images, startsWithDev (firstSegL (basenameL q.data)) = false) :
    images.foldl devStep gs = gs := by
  induction images generalizing gs with
  | nil => rfl
  | cons img images ih =>
    rw [List.foldl_cons, devStep, if_neg (by simp [h img (by simp)])]
    exact ih gs fun q hq => h q (by simp [hq])

/-! ### Properties of the split used by the grouping key -/

theorem splitU_ne_nil (l : List Char) : splitU l ≠ [] := by
  cases l with
  | nil => simp [splitU]
  | cons c rest =>
    rw [splitU]
    rcases h : splitU rest with _ | ⟨s, ss⟩
    · simp
    · dsimp only
      split <;> simp

theorem firstSegL_of_no_underscore (l : List Char) (h : '_' ∉ l) : firstSegL l = l := by
  induction l with
  | nil => rfl
  | cons c rest ih =>
    have hc : c ≠ '_' := fun e => h (by simp [e])
    have ih2 := ih fun hm => h (by simp [hm])
    rcases hs : splitU rest with _ | ⟨s, ss⟩
    · exact absurd hs (splitU_ne_nil rest)
    · rw [firstSegL, splitU, hs]
      dsimp only
      rw [if_neg hc]
      rw [firstSegL, hs] at ih2
      simp at ih2
      simp [ih2]

/-! ### Dispatcher helpers -/

theorem videos_length (groups : List (List String)) (fr : Nat) (td fp : String)
    (oc : Nat → ProcOutcome) :
    (create_video_from_grouped_images_videos groups fr td fp oc).length = groups.length := by
  simp [create_video_from_grouped_images_videos]

theorem videos_get (groups : List (List String)) (fr : Nat) (td fp : String)
    (oc : Nat → ProcOutcome) (i : Nat) (h : i < groups.length) :
    (create_video_from_grouped_images_videos groups fr td fp oc)[i]? =
      some (pathJoin td (groupVideoName i)) := by
  rw [create_video_from_grouped_images_videos, List.getElem?_map, List.enum,
    List.getElem?_enumFrom, List.getElem?_eq_getElem h]
  simp [create_video_from_group]

theorem pathJoin_groupVideoName_inj (td : String) {i j : Nat}
    (h : pathJoin td (groupVideoName i) = pathJoin td (groupVideoName j)) : i = j :=
  groupVideoName_inj (pathJoin_right_inj td _ _
    (by rw [groupVideoName_head]; decide) (by rw [groupVideoName_head]; decide) h)

theorem pathJoin_groupManifestName_inj (td : String) {i j : Nat}
    (h : pathJoin td (groupManifestName i) = pathJoin td (groupManifestName j)) : i = j :=
  groupManifestName_inj (pathJoin_right_inj td _ _
    (by rw [groupManifestName_head]; decide) (by rw [groupManifestName_head]; decide) h)

theorem findGroup_mem (gs : List (String × List String)) (k : String) (l : List String)
    (h : findGroup gs k = some l) : (k, l) ∈ gs := by
  induction gs with
  | nil => exact Option.noConfusion h
  | cons g gs ih =>
    rw [findGroup] at h
    by_cases hk : g.1 = k
    · rw [if_pos hk] at h
      obtain ⟨a, b⟩ := g
      simp only at hk h
      subst hk
      rw [Option.some.injEq] at h
      subst h
      exact List.mem_cons_self _ _
    · rw [if_neg hk] at h
      exact List.mem_cons_of_mem _ (ih h)

/-! ### The claims -/

set_option maxRecDepth 4000 in
/-- C1: for every 4-element list of intermediate clips `[A, B, C, D]`
(indices 0..3), the grid command built by the composer feeds the inputs in
order and its filter graph scales every input to 960x540 on a 1920x1080
canvas and overlays input 3 at top-left (offset 0:0), input 0 at top-right
(`W/2:0`), input 1 at bottom-left (`0:H/2`) and input 2 at bottom-right
(`W/2:H/2`) — exact string match of the generated graph. -/
theorem C1_grid_filter_graph (A B C D out ff : String) :
    create_video_from_grouped_images_grid_cmd [A, B, C, D] out ff =
      [ff, "-y", "-i", A, "-i", B, "-i", C, "-i", D,
       "-c:v", "libx264", "-preset", "fast", "-crf", "23", "-filter_complex",
       "nullsrc=size=1920x1080 [base];[3:v] setpts=PTS-STARTPTS, scale=960x540 [upperleft];[0:v] setpts=PTS-STARTPTS, scale=960x540 [upperright];[1:v] setpts=PTS-STARTPTS, scale=960x540 [lowerleft];[2:v] setpts=PTS-STARTPTS, scale=960x540 [lowerright];[base][upperleft] overlay=shortest=1 [tmp1];[tmp1][upperright] overlay=W/2:0 [tmp2];[tmp2][lowerleft] overlay=0:H/2 [tmp3];[tmp3][lowerright] overlay=W/2:H/2",
       out] := by
  rw [create_video_from_grouped_images_grid_cmd, filterComplex]
  rfl

/-- C2: for every group, frame rate, scratch directory and ffmpeg path,
`create_video_from_group` returns the intermediate path
`temp_dir/group_<index>.mp4` under every process outcome; a non-zero exit
is only logged together with the captured stderr (the function neither
raises nor returns an error value). -/
theorem C2_encoder_continues_on_failure (group : List String) (i fr : Nat)
    (td fp : String) (oc : ProcOutcome) :
    (create_video_from_group group i fr td fp oc).video = pathJoin td (groupVideoName i) ∧
    (∀ e s, (create_video_from_group group i fr td fp (.failure e s)).logs =
      ["Error while creating video for group " ++ decStr (i + 1) ++ ": " ++ e,
       "FFmpeg stderr: " ++ s]) :=
  ⟨rfl, fun _ _ => rfl⟩

/-- C3: dispatching `K` groups yields exactly `K` intermediate-clip paths;
the `i`-th collected path is `temp_dir/group_i.mp4`, the `i`-th invocation
writes manifest `temp_dir/group_i.txt`, and distinct groups never share a
manifest or output path. -/
theorem C3_dispatcher_order (groups : List (List String)) (fr : Nat) (td fp : String)
    (oc : Nat → ProcOutcome) :
    (create_video_from_grouped_images_videos groups fr td fp oc).length = groups.length ∧
    (∀ i, i < groups.length →
      (create_video_from_grouped_images_videos groups fr td fp oc)[i]? =
        some (pathJoin td (groupVideoName i))) ∧
    (∀ g i, (create_video_from_group g i fr td fp (oc i)).manifest =
        pathJoin td (groupManifestName i)) ∧
    (∀ i j, i ≠ j →
      pathJoin td (groupVideoName i) ≠ pathJoin td (groupVideoName j) ∧
      pathJoin td (groupManifestName i) ≠ pathJoin td (groupManifestName j)) := by
  refine ⟨videos_length groups fr td fp oc, videos_get groups fr td fp oc, fun g i => rfl,
    fun i j hij => ⟨?_, ?_⟩⟩
  · exact fun e => hij (pathJoin_groupVideoName_inj td e)
  · exact fun e => hij (pathJoin_groupManifestName_inj td e)

theorem C3_dispatcher_order_witness :
    (create_video_from_grouped_images_videos [["a.png"], ["b.png"]] 30 "temp" "ffmpeg"
        (fun _ => .success))[1]? = some (pathJoin "temp" (groupVideoName 1)) ∧
    pathJoin "temp" (groupVideoName 0) ≠ pathJoin "temp" (groupVideoName 1) ∧
    pathJoin "temp" (groupManifestName 0) ≠ pathJoin "temp" (groupManifestName 1) := by
  have h := C3_dispatcher_order [["a.png"], ["b.png"]] 30 "temp" "ffmpeg" (fun _ => .success)
  exact ⟨h.2.1 1 (by decide), (h.2.2.2 0 1 (by decide)).1, (h.2.2.2 0 1 (by decide)).2⟩

/-- C4: `group_images_by_developer` places every file whose basename's first
underscore-delimited segment starts with the literal `Dev` into the group
keyed by that segment; a file whose first segment does not start with `Dev`
appears in no group and only produces a skip log line; an all-skipped or
empty input yields an empty mapping. -/
theorem C4_grouping (images : List String) (limit : Nat) (p : String) :
    (p ∈ images → images.length ≤ limit →
      startsWithDev (firstSegL (basenameL p.data)) = true →
      ∃ l, findGroup (group_images_by_developer images limit)
          ⟨firstSegL (basenameL p.data)⟩ = some l ∧ p ∈ l) ∧
    (startsWithDev (firstSegL (basenameL p.data)) = false →
      ∀ g ∈ group_images_by_developer images limit, p ∉ g.2) ∧
    (p ∈ images → startsWithDev (firstSegL (basenameL p.data)) = false →
      ("Skipping invalid file: " ++ basename p) ∈ skippedLogs images) ∧
    ((∀ q ∈ images, startsWithDev (firstSegL (basenameL q.data)) = false) →
      group_images_by_developer images limit = []) := by
  refine ⟨?_, ?_, ?_, ?_⟩
  · intro hp hlim hdev
    have hmem := mem_findGroup_buildGroups images p hp hdev
    rcases mem_getD_iff.mp hmem with ⟨l, hl, hpl⟩
    have hlen : l.length ≤ limit := by
      have hgs := groupsLen_buildGroups images
      have hmem2 : ((⟨firstSegL (basenameL p.data)⟩ : String), l) ∈ buildGroups images :=
        findGroup_mem _ _ _ hl
      exact le_trans (hgs _ hmem2) hlim
    refine ⟨l.take limit, ?_, ?_⟩
    · rw [group_images_by_developer, findGroup_map_take, hl]
      rfl
    · rw [List.take_of_length_le hlen]
      exact hpl
  · intro hdev g hg hpg
    rw [group_images_by_developer] at hg
    rcases List.mem_map.mp hg with ⟨g0, hg0, rfl⟩
    have := groupsDev_buildGroups images g0 hg0 p (List.take_subset _ _ hpg)
    rw [hdev] at this
    exact Bool.noConfusion this
  · intro hp hdev
    rw [skippedLogs]
    refine List.mem_map.mpr ⟨p, ?_, rfl⟩
    refine List.mem_filter.mpr ⟨hp, ?_⟩
    simp [hdev]
  · intro hall
    rw [group_images_by_developer, buildGroups, foldl_devStep_all_skipped images [] hall]
    rfl

theorem C4_grouping_witness :
    (∃ l, findGroup (group_images_by_developer ["Dev3_a.png", "developer1_b.png"] 10)
        ⟨firstSegL (basenameL ("Dev3_a.png" : String).data)⟩ = some l ∧
        ("Dev3_a.png" : String) ∈ l) ∧
    (∀ g ∈ group_images_by_developer ["Dev3_a.png", "developer1_b.png"] 10,
      ("developer1_b.png" : String) ∉ g.2) ∧
    ("Skipping invalid file: " ++ basename "developer1_b.png" ∈
      skippedLogs ["Dev3_a.png", "developer1_b.png"]) ∧
    group_images_by_developer ["developer1_b.png"] 10 = [] := by
  have h1 := C4_grouping ["Dev3_a.png", "developer1_b.png"] 10 "Dev3_a.png"
  have h2 := C4_grouping ["Dev3_a.png", "developer1_b.png"] 10 "developer1_b.png"
  have h3 := C4_grouping ["developer1_b.png"] 10 "developer1_b.png"
  exact ⟨h1.1 (by decide) (by decide) (by decide), h2.2.1 (by decide),
    h2.2.2.1 (by decide) (by decide), h3.2.2.2 (by decide)⟩

/-- C5: with a group cap of `N`, the emitted group keyed `k` is exactly the
first `N` entries (in insertion order) of the uncapped group; a group of at
most `N` entries is unchanged, a larger one is cut to exactly `N`. -/
theorem C5_group_cap (images : List String) (N : Nat) (k : String) (l : List String)
    (h : findGroup (buildGroups images) k = some l) :
    findGroup (group_images_by_developer images N) k = some (l.take N) ∧
    (l.length ≤ N → l.take N = l) ∧
    (N ≤ l.length → (l.take N).length = N) := by
  refine ⟨?_, fun hle => List.take_of_length_le hle, fun hge => ?_⟩
  · rw [group_images_by_developer, findGroup_map_take, h]
    rfl
  · rw [List.length_take]
    omega

theorem C5_group_cap_witness :
    findGroup (group_images_by_developer ["Dev3_a.png", "Dev3_b.png"] 1) "Dev3" =
      some ((["Dev3_a.png", "Dev3_b.png"] : List String).take 1) ∧
    ((["Dev3_a.png", "Dev3_b.png"] : List String).take 1).length = 1 := by
  have h := C5_group_cap ["Dev3_a.png", "Dev3_b.png"] 1 "Dev3"
    ["Dev3_a.png", "Dev3_b.png"] (by decide)
  exact ⟨h.1, h.2.2 (by decide)⟩

/-- C6: the renamer's per-file name transformation is idempotent — applying
it to any name it produced gives the same name back, so a second pass over
a folder changes nothing; in particular `proj_fn000042.png` maps to
itself. -/
theorem C6_renamer_idempotent :
    (∀ s : String, renameFileName (renameFileName s) = renameFileName s) ∧
    renameFileName "proj_fn000042.png" = "proj_fn000042.png" :=
  ⟨renameFileName_idem, by decide⟩

/-- C7: a recognised image file whose name matches `_fn` + digits + a dot
extension has its digit run zero-padded (`proj_fn42.png` becomes
`proj_fn000042.png`); a name without the pattern is left unchanged. -/
theorem C7_renamer_pattern :
    (∀ s : String, reSearch s.data = none → renameFileName s = s) ∧
    (∀ (s : String) (g1 ds g3 : List Char), hasImageExt s = true →
      reSearch s.data = some (g1, ds, g3) →
      renameFileName s = ⟨g1 ++ pad6 (digitsToNat ds) ++ g3⟩) ∧
    renameFileName "proj_fn42.png" = "proj_fn000042.png" ∧
    renameFileName "proj_other.png" = "proj_other.png" := by
  refine ⟨?_, ?_, by decide, by decide⟩
  · intro s h
    rw [renameFileName]
    split
    · rw [newNameL, h]
    · rfl
  · intro s g1 ds g3 hext hsome
    rw [renameFileName, if_pos hext, newNameL, hsome]

theorem C7_renamer_pattern_witness :
    renameFileName "proj_other.png" = "proj_other.png" ∧
    renameFileName "proj_fn42.png" =
      ⟨"proj_fn".data ++ pad6 (digitsToNat "42".data) ++ ".png".data⟩ := by
  have h := C7_renamer_pattern
  exact ⟨h.1 "proj_other.png" (by decide),
    h.2.1 "proj_fn42.png" "proj_fn".data "42".data ".png".data (by decide) (by decide)⟩

theorem renLoop_append_raises (pre : List (String × FsOutcome)) (name m : String)
    (rest rest' : List (String × FsOutcome)) (hext : hasImageExt name = true)
    (hmatch : reSearch name.data ≠ none) :
    renLoop (pre ++ (name, .raises m) :: rest) =
      renLoop (pre ++ (name, .raises m) :: rest') := by
  induction pre with
  | nil =>
    rcases hs : reSearch name.data with _ | ⟨g1, ds, g3⟩
    · exact absurd hs hmatch
    · rw [List.nil_append, List.nil_append, renLoop, renLoop, if_pos hext, if_pos hext, hs]
  | cons f pre ih =>
    obtain ⟨fname, foc⟩ := f
    rw [List.cons_append, List.cons_append, renLoop, renLoop]
    by_cases hf : hasImageExt fname = true
    · rw [if_pos hf, if_pos hf]
      rcases hfs : reSearch fname.data with _ | ⟨g1, ds, g3⟩ <;> dsimp only
      · exact ih
      · rcases foc with _ | m'
        · dsimp only
          rw [ih]
        · rfl
    · rw [if_neg hf, if_neg hf]
      exact ih

/-- C8: one exception inside the loop abandons all remaining files — the
result does not depend on what follows the raising file — and a missing
folder is only reported; the function is total (no exception escapes). -/
theorem C8_renamer_exception (pre : List (String × FsOutcome)) (name m : String)
    (rest rest' : List (String × FsOutcome)) (fp : String)
    (hext : hasImageExt name = true) (hmatch : reSearch name.data ≠ none) :
    rename_files_in_folder fp (some (pre ++ (name, .raises m) :: rest)) =
      rename_files_in_folder fp (some (pre ++ (name, .raises m) :: rest')) ∧
    rename_files_in_folder fp none =
      ([], ["The folder '" ++ fp ++ "' does not exist."]) := by
  refine ⟨?_, rfl⟩
  rw [rename_files_in_folder, rename_files_in_folder]
  exact renLoop_append_raises pre name m rest rest' hext hmatch

theorem C8_renamer_exception_witness :
    rename_files_in_folder "pictures"
        (some [("a_fn1.png", .ok), ("b_fn2.png", .raises "disk"), ("c_fn3.png", .ok)]) =
      rename_files_in_folder "pictures"
        (some [("a_fn1.png", .ok), ("b_fn2.png", .raises "disk")]) := by
  have h := C8_renamer_exception [("a_fn1.png", .ok)] "b_fn2.png" "disk"
    [("c_fn3.png", .ok)] [] "pictures" (by decide) (by decide)
  exact h.1

/-- C9: splitting a basename on underscores never yields an empty list, and
a basename with no underscore has the whole name (extension included) as
its first segment, so `Devfoo.png` is grouped under the key `Devfoo.png`. -/
theorem C9_split_never_fails :
    (∀ l : List Char, splitU l ≠ []) ∧
    (∀ l : List Char, '_' ∉ l → firstSegL l = l) ∧
    findGroup (group_images_by_developer ["Devfoo.png"] 10000000) "Devfoo.png" =
      some ["Devfoo.png"] :=
  ⟨splitU_ne_nil, firstSegL_of_no_underscore, by decide⟩

theorem C9_split_never_fails_witness :
    firstSegL ("Devfoo.png" : String).data = ("Devfoo.png" : String).data :=
  C9_split_never_fails.2.1 ("Devfoo.png" : String).data (by decide)

/-- C10: the digit run is normalised through integer conversion before
padding — `x_fn0000042.png` shrinks to `x_fn000042.png`; values below 10^6
are padded to exactly six digits, larger values are re-emitted at their
natural width with no leading zero. -/
theorem C10_digit_normalization :
    renameFileName "x_fn0000042.png" = "x_fn000042.png" ∧
    (∀ n : Nat, n < 1000000 → (pad6 n).length = 6) ∧
    (∀ n : Nat, 1000000 ≤ n →
      pad6 n = toDec n ∧ (toDec n).head? ≠ some '0') := by
  refine ⟨by decide, ?_, ?_⟩
  · intro n h
    have h6 : (10 : Nat) ^ 6 = 1000000 := by norm_num
    have hle := toDec_length_le 6 n (by omega) (by rw [h6]; exact h)
    rw [pad6, List.length_append, List.length_replicate]
    omega
  · intro n h
    have h6 : (10 : Nat) ^ 6 = 1000000 := by norm_num
    have hge := toDec_length_ge 6 n (by rw [h6]; exact h)
    constructor
    · rw [pad6, show 6 - (toDec n).length = 0 from by omega, List.replicate_zero,
        List.nil_append]
    · exact toDec_head_ne_zero n (by omega)

theorem C10_digit_normalization_witness :
    (pad6 42).length = 6 ∧ pad6 12345678 = toDec 12345678 := by
  have h := C10_digit_normalization
  exact ⟨h.2.1 42 (by norm_num), (h.2.2 12345678 (by norm_num)).1⟩

end Videomaker
